import Mathlib

/-!
# async_manual_reset_event and CoroTask (awaiter_lewis/coroasync3.cpp)

A shallow embedding of the lock-free manual-reset event, of its awaiter and of
the `CoroTask` wrapper, followed by the properties proved about them.

Memory is modelled explicitly:

* a value of the event's `std::atomic<void*> m_state` is a `Ptr`: `nullptr`,
  the address of the event itself (the source's `this`, the "set" sentinel), or
  the address of an `awaiter` object;
* `awaiter` objects live in a store indexed by address;
* coroutine frames live in a store indexed by coroutine handle.

Console output (`std::cout`) is not part of the state.
-/

namespace Coro

/-! ## Data model -/

/-- Values of the `void*` kept in `m_state` and of the `awaiter*` kept in
`m_next`: `nullptr`, the event's own address, or the address of an awaiter. -/
inductive Ptr where
  | null : Ptr
  | this : Ptr
  | node : Nat → Ptr
  deriving DecidableEq, Repr

/-- The fields of `async_manual_reset_event::awaiter` written by the code:
`m_awaitingCoroutine` (a coroutine handle) and `m_next`. The reference
`m_event` is the one event of the world. -/
structure awaiter where
  m_awaitingCoroutine : Nat
  m_next : Ptr
  deriving DecidableEq, Repr

/-- Statements of a coroutine body, as far as the event is concerned. -/
inductive Stmt where
  | print : Stmt
  | co_await : Stmt
  | reset : Stmt
  deriving DecidableEq, Repr

/-- A coroutine frame: the statements that remain to be run after the current
suspension point, and whether the coroutine is suspended at its final suspend
point (`coroutine_handle::done()`). -/
structure Frame where
  pc : List Stmt
  done : Bool
  deriving DecidableEq, Repr

/-- The event, the awaiter objects (by address) and the coroutine frames (by
handle). -/
structure World where
  m_state : Ptr
  awaiters : Nat → awaiter
  frames : Nat → Frame

/-- Overwrite the awaiter object at address `a`. -/
def World.setAwaiter (w : World) (a : Nat) (x : awaiter) : World :=
  { w with awaiters := Function.update w.awaiters a x }

/-- Overwrite the coroutine frame of handle `h`. -/
def World.setFrame (w : World) (h : Nat) (f : Frame) : World :=
  { w with frames := Function.update w.frames h f }

/-! ## async_manual_reset_event -/

namespace async_manual_reset_event

/-- The constructor: `m_state(initiallySet ? this : nullptr)`. -/
def init (initiallySet : Bool) (awaiters : Nat → awaiter) (frames : Nat → Frame) : World :=
  { m_state := if initiallySet then Ptr.this else Ptr.null
    awaiters := awaiters
    frames := frames }

/-- The source: `return m_state.load(acquire) == this;`. -/
def is_set (w : World) : Bool :=
  decide (w.m_state = Ptr.this)

/-- The source: `oldValue = this; m_state.compare_exchange_strong(oldValue, nullptr)`. -/
def reset (w : World) : World :=
  if w.m_state = Ptr.this then { w with m_state := Ptr.null } else w

/-- The source's `awaiter::await_ready`: `return m_event.is_set();`. -/
def await_ready (w : World) : Bool :=
  is_set w

/-- The do-while loop of `awaiter::await_suspend` for the awaiter at address
`self`. `oldValue` is the value the loop holds on entry of the iteration;
`reloads` lists the values that failing `compare_exchange_weak` calls load into
`oldValue`, in order. When `reloads` is exhausted the compare-exchange succeeds:
`m_state` held `oldValue` and now holds `self`. -/
def await_suspend_loop (self : Nat) : Ptr → List Ptr → World → Bool × World
  | oldValue, reloads, w =>
    if oldValue = Ptr.this then
      (false, w)
    else
      let w1 := w.setAwaiter self { w.awaiters self with m_next := oldValue }
      match reloads with
      | [] => (true, { w1 with m_state := Ptr.node self })
      | v :: rest => await_suspend_loop self v rest w1

/-- The source's `awaiter::await_suspend` under interference: the handle is
stashed, `loaded` is the value of the initial `m_state.load`, `reloads` are the
values observed by the failing compare-exchanges. -/
def await_suspend_obs (self awaitingCoroutine : Nat) (loaded : Ptr) (reloads : List Ptr)
    (w : World) : Bool × World :=
  let w0 := w.setAwaiter self { w.awaiters self with m_awaitingCoroutine := awaitingCoroutine }
  await_suspend_loop self loaded reloads w0

/-- The source's `awaiter::await_suspend` run without interference: the load
reads `m_state` and the first compare-exchange succeeds. -/
def await_suspend (self awaitingCoroutine : Nat) (w : World) : Bool × World :=
  await_suspend_obs self awaitingCoroutine w.m_state [] w

/-- The `while (waiters != nullptr)` loop of `set()`. `resume h` is
`coroutine_handle::resume()` on handle `h`; it fails (`none`) where resuming is
undefined. The result lists the handles on which `resume()` was called, in call
order. Each iteration uses one unit of `fuel`; treating the event's own address
as an awaiter is undefined. -/
def drain (resume : Nat → World → Option World) : Nat → Ptr → World → Option (List Nat × World)
  | _, Ptr.null, w => some ([], w)
  | _, Ptr.this, _ => none
  | 0, Ptr.node _, _ => none
  | fuel + 1, Ptr.node a, w =>
    let next := (w.awaiters a).m_next
    let h := (w.awaiters a).m_awaitingCoroutine
    match resume h w with
    | none => none
    | some w1 =>
      match drain resume fuel next w1 with
      | none => none
      | some (hs, w2) => some (h :: hs, w2)

/-- The source's `set()`: `oldValue = m_state.exchange(this)`, then the drain
of the list headed by `oldValue` unless `oldValue == this`. -/
def set (resume : Nat → World → Option World) (fuel : Nat) (w : World) :
    Option (List Nat × World) :=
  let oldValue := w.m_state
  let w1 := { w with m_state := Ptr.this }
  if oldValue ≠ Ptr.this then drain resume fuel oldValue w1 else some ([], w1)

end async_manual_reset_event

/-- The waiter list headed by `p`: `L` lists the addresses of the awaiters
reached from `p` through `m_next`, up to `nullptr`. -/
def waiterList (awaiters : Nat → awaiter) : Ptr → List Nat → Prop
  | p, [] => p = Ptr.null
  | p, a :: L => p = Ptr.node a ∧ waiterList awaiters (awaiters a).m_next L

/-! ## Coroutines and CoroTask -/

/-- Run the statements of the body of coroutine `h` until it suspends at a
`co_await` or reaches the end. The awaiter temporary of a `co_await` lives in
the coroutine frame: its address is the frame's handle `h`, and `h` is the
handle passed to `await_suspend`. At the end of the body the coroutine stops at
`final_suspend` (`suspend_always`), so `done()` becomes true. -/
def run_body (h : Nat) : List Stmt → World → World
  | [], w => w.setFrame h { pc := [], done := true }
  | Stmt.print :: rest, w => run_body h rest w
  | Stmt.reset :: rest, w => run_body h rest (async_manual_reset_event.reset w)
  | Stmt.co_await :: rest, w =>
    if async_manual_reset_event.await_ready w then
      run_body h rest w
    else
      let r := async_manual_reset_event.await_suspend h h w
      if r.1 then r.2.setFrame h { pc := rest, done := false }
      else run_body h rest r.2

/-- The library call `coroutine_handle::resume()` on handle `h`: continue the
body from the current suspension point. Resuming a coroutine that is suspended
at its final suspend point is undefined (`none`). -/
def coroutine_resume (h : Nat) (w : World) : Option World :=
  if (w.frames h).done then none else some (run_body h (w.frames h).pc w)

/-- The class `CoroTask` holds the native coroutine handle, which may be null. -/
structure CoroTask where
  hdl : Option Nat
  deriving DecidableEq, Repr

/-- Calling a coroutine function such as `consumer()`: the frame `h` is
allocated, `initial_suspend` is `suspend_always`, so no statement of the body
runs, and the task wraps the handle. -/
def CoroTask.create (h : Nat) (body : List Stmt) (w : World) : CoroTask × World :=
  ({ hdl := some h }, w.setFrame h { pc := body, done := false })

/-- The source's `CoroTask::resume`:
`if (!hdl || hdl.done()) return false; hdl.resume(); return !hdl.done();`. -/
def CoroTask.resume (t : CoroTask) (w : World) : Option (Bool × World) :=
  match t.hdl with
  | none => some (false, w)
  | some h =>
    if (w.frames h).done then some (false, w)
    else
      match coroutine_resume h w with
      | none => none
      | some w1 => some (!(w1.frames h).done, w1)

/-- The body of `consumer()` (and of `example`): output, `co_await event`,
output. -/
def consumer : List Stmt :=
  [Stmt.print, Stmt.co_await, Stmt.print]

/-- The source's `CoTask::resume` of sched_charles/cotask.cpp, over any state
`σ` of coroutine frames: `done h` is `_handle.done()`, `resume h` is
`_handle.resume()`. -/
def CoTask.resume {σ : Type} (done : Nat → σ → Bool) (resume : Nat → σ → Option σ)
    (_handle : Option Nat) (s : σ) : Option (Bool × σ) :=
  match _handle with
  | none => some (false, s)
  | some h =>
    if done h s then some (false, s)
    else
      match resume h s with
      | none => none
      | some s1 => some (!(done h s1), s1)

/-! ## Sequences of calls -/

/-- Enqueue the coroutines `hs` one after the other: each calls `await_suspend`
on the awaiter of its frame. The results are listed in call order. -/
def suspend_all : List Nat → World → List Bool × World
  | [], w => ([], w)
  | h :: hs, w =>
    let r := async_manual_reset_event.await_suspend h h w
    let rs := suspend_all hs r.2
    (r.1 :: rs.1, rs.2)

/-- A call on the event other than `reset()`. -/
inductive Call where
  | is_set : Call
  | set : Call
  | await_ready : Call
  | await_suspend : Nat → Nat → Call
  deriving DecidableEq, Repr

/-- What a call returned: the boolean of `is_set`, `await_ready` and
`await_suspend`, the handles resumed by `set`. -/
inductive Outcome where
  | is_set : Bool → Outcome
  | set : List Nat → Outcome
  | await_ready : Bool → Outcome
  | await_suspend : Bool → Outcome
  deriving DecidableEq, Repr

/-- Perform one call. -/
def Call.run (resume : Nat → World → Option World) (fuel : Nat) :
    Call → World → Option (Outcome × World)
  | Call.is_set, w => some (Outcome.is_set (async_manual_reset_event.is_set w), w)
  | Call.set, w =>
    match async_manual_reset_event.set resume fuel w with
    | none => none
    | some (hs, w1) => some (Outcome.set hs, w1)
  | Call.await_ready, w =>
    some (Outcome.await_ready (async_manual_reset_event.await_ready w), w)
  | Call.await_suspend self h, w =>
    let r := async_manual_reset_event.await_suspend self h w
    some (Outcome.await_suspend r.1, r.2)

/-- Perform the calls in order and list their outcomes. -/
def run_calls (resume : Nat → World → Option World) (fuel : Nat) :
    List Call → World → Option (List Outcome × World)
  | [], w => some ([], w)
  | c :: cs, w =>
    match c.run resume fuel w with
    | none => none
    | some (o, w1) =>
      match run_calls resume fuel cs w1 with
      | none => none
      | some (os, w2) => some (o :: os, w2)

/-- The outcome of a call that neither suspends nor reports an unset event. -/
def Outcome.not_suspending : Outcome → Bool
  | Outcome.is_set b => b
  | Outcome.set hs => hs.isEmpty
  | Outcome.await_ready b => b
  | Outcome.await_suspend b => !b

/-- Call `set()` twice in a row; the resumed handles of both calls are
concatenated. -/
def set_twice (resume : Nat → World → Option World) (fuel : Nat) (w : World) :
    Option (List Nat × World) :=
  match async_manual_reset_event.set resume fuel w with
  | none => none
  | some (hs1, w1) =>
    match async_manual_reset_event.set resume fuel w1 with
    | none => none
    | some (hs2, w2) => some (hs1 ++ hs2, w2)

/-! ## Concrete worlds -/

/-- A world with an unset event, no awaiter linked and every frame at the end of
an empty body, not yet finished. -/
def world0 : World :=
  { m_state := Ptr.null
    awaiters := fun _ => { m_awaitingCoroutine := 0, m_next := Ptr.null }
    frames := fun _ => { pc := [], done := false } }

/-- A world whose event is set. -/
def worldSet : World :=
  { world0 with m_state := Ptr.this }

/-- A world in which coroutine 0 is linked into the event and will call
`reset()` when it is resumed. -/
def worldResetting : World :=
  { m_state := Ptr.node 0
    awaiters := fun _ => { m_awaitingCoroutine := 0, m_next := Ptr.null }
    frames := fun _ => { pc := [Stmt.reset], done := false } }

/-- A world in which coroutine 0 is linked into the event and only produces
output when it is resumed. -/
def worldWaiting : World :=
  { m_state := Ptr.node 0
    awaiters := fun _ => { m_awaitingCoroutine := 0, m_next := Ptr.null }
    frames := fun _ => { pc := [Stmt.print], done := false } }

/-- A world in which coroutine 0 has run to its final suspend point. -/
def worldDone : World :=
  { worldSet with frames := fun _ => { pc := [], done := true } }

/-- The driver loop `while (task.resume()) ++count;`, cut off after `n` calls:
the number of times `resume()` reported a suspension. -/
def count_suspensions (t : CoroTask) : Nat → World → Option (Nat × World)
  | 0, w => some (0, w)
  | n + 1, w =>
    match t.resume w with
    | none => none
    | some (false, w1) => some (0, w1)
    | some (true, w1) =>
      match count_suspensions t n w1 with
      | none => none
      | some (k, w2) => some (k + 1, w2)

/-- A body that waits once on the event: `i` outputs, `co_await event`, `j`
outputs. The source's `consumer` is `wait_once 1 1`. -/
def wait_once (i j : Nat) : List Stmt :=
  List.replicate i Stmt.print ++ Stmt.co_await :: List.replicate j Stmt.print

/-! ## Interleavings of one set() and N waits

The threads take turns in any order (a sequentially consistent interleaving);
a turn makes at most one access to `m_state`. Waiter `i` is coroutine `i`,
whose awaiter has address `i`. Only what the event sees of a continuation is
recorded: how often it has been run, and how often `resume()` was called on its
handle. -/

/-- Where waiter `i` stands in `co_await event`. -/
inductive WaiterPc where
  /-- Before `await_ready()`. -/
  | ready : WaiterPc
  /-- The call `await_ready()` returned false; before `await_suspend()`. -/
  | suspend : WaiterPc
  /-- At the top of the do-while body, `oldValue` in hand. -/
  | check : Ptr → WaiterPc
  /-- After `m_next = oldValue`, before `compare_exchange_weak(oldValue, this)`. -/
  | cas : Ptr → WaiterPc
  /-- The call `await_suspend()` returned true: the coroutine is suspended. -/
  | suspended : WaiterPc
  /-- The wait did not suspend and the coroutine continued. -/
  | finished : WaiterPc
  deriving DecidableEq, Repr

/-- Where the thread calling `set()` stands. -/
inductive SetterPc where
  /-- Before `m_state.exchange(this)`. -/
  | idle : SetterPc
  /-- In the while loop, with the value of `waiters`. -/
  | drain : Ptr → SetterPc
  /-- The call `set()` has returned. -/
  | finished : SetterPc
  deriving DecidableEq, Repr

/-- The shared event and awaiters, the position of every thread, and for every
coroutine the number of times its continuation has run (`ran`) and the number of
`resume()` calls on its handle (`calls`). -/
structure CState where
  m_state : Ptr
  awaiters : Nat → awaiter
  pc : Nat → WaiterPc
  setter : SetterPc
  ran : Nat → Nat
  calls : Nat → Nat

/-- A turn: of waiter `i` (with whether its `compare_exchange_weak`, if this is
the access of the turn, fails spuriously), or of the setter. -/
inductive Turn where
  | waiter : Nat → Bool → Turn
  | setter : Turn
  deriving DecidableEq, Repr

/-- The turn of waiter `i`. -/
def step_waiter (i : Nat) (spurious : Bool) (s : CState) : CState :=
  match s.pc i with
  | WaiterPc.ready =>
    -- await_ready: return m_event.is_set()
    if s.m_state = Ptr.this then
      { s with pc := Function.update s.pc i WaiterPc.finished
               ran := Function.update s.ran i (s.ran i + 1) }
    else
      { s with pc := Function.update s.pc i WaiterPc.suspend }
  | WaiterPc.suspend =>
    -- m_awaitingCoroutine = awaitingCoroutine; oldValue = m_state.load()
    { s with awaiters := Function.update s.awaiters i
               { s.awaiters i with m_awaitingCoroutine := i }
             pc := Function.update s.pc i (WaiterPc.check s.m_state) }
  | WaiterPc.check oldValue =>
    if oldValue = Ptr.this then
      -- return false: the coroutine continues without suspending
      { s with pc := Function.update s.pc i WaiterPc.finished
               ran := Function.update s.ran i (s.ran i + 1) }
    else
      -- m_next = oldValue
      { s with awaiters := Function.update s.awaiters i { s.awaiters i with m_next := oldValue }
               pc := Function.update s.pc i (WaiterPc.cas oldValue) }
  | WaiterPc.cas oldValue =>
    if s.m_state = oldValue ∧ spurious = false then
      -- the compare-exchange succeeds; return true
      { s with m_state := Ptr.node i
               pc := Function.update s.pc i WaiterPc.suspended }
    else
      -- the compare-exchange fails and reloads oldValue
      { s with pc := Function.update s.pc i (WaiterPc.check s.m_state) }
  | WaiterPc.suspended => s
  | WaiterPc.finished => s

/-- The turn of the thread in `set()`. -/
def step_setter (s : CState) : CState :=
  match s.setter with
  | SetterPc.idle =>
    -- oldValue = m_state.exchange(this); if (oldValue != this) ...
    { s with m_state := Ptr.this
             setter := if s.m_state ≠ Ptr.this then SetterPc.drain s.m_state
                       else SetterPc.finished }
  | SetterPc.drain Ptr.null => { s with setter := SetterPc.finished }
  | SetterPc.drain Ptr.this => s
  | SetterPc.drain (Ptr.node a) =>
    -- next = waiters->m_next; waiters->m_awaitingCoroutine.resume(); waiters = next
    { s with setter := SetterPc.drain (s.awaiters a).m_next
             calls := Function.update s.calls (s.awaiters a).m_awaitingCoroutine
               (s.calls (s.awaiters a).m_awaitingCoroutine + 1)
             ran := Function.update s.ran (s.awaiters a).m_awaitingCoroutine
               (s.ran (s.awaiters a).m_awaitingCoroutine + 1) }
  | SetterPc.finished => s

/-- One turn among `N` waiters and the setter; a turn of a thread that does not
exist changes nothing. -/
def step (N : Nat) : Turn → CState → CState
  | Turn.waiter i spurious, s => if i < N then step_waiter i spurious s else s
  | Turn.setter, s => step_setter s

/-- An interleaving: the turns taken in order. -/
def run (N : Nat) : List Turn → CState → CState
  | [], s => s
  | t :: ts, s => run N ts (step N t s)

/-- The initial state: the event is unset, no thread has started, nothing has
run. -/
def CState.init (awaiters : Nat → awaiter) : CState :=
  { m_state := Ptr.null
    awaiters := awaiters
    pc := fun _ => WaiterPc.ready
    setter := SetterPc.idle
    ran := fun _ => 0
    calls := fun _ => 0 }

/-- All calls have returned: `set()` has, and each of the `N` waits has either
suspended or continued without suspending. -/
def quiescent (N : Nat) (s : CState) : Prop :=
  s.setter = SetterPc.finished ∧
    ∀ i, i < N → s.pc i = WaiterPc.suspended ∨ s.pc i = WaiterPc.finished

instance (N : Nat) (s : CState) : Decidable (quiescent N s) := by
  unfold quiescent
  infer_instance

/-- An interleaving of two waits and `set()`: waiter 0 is enqueued, waiter 1
loses the race for the head, `set()` exchanges the state, waiter 1 retries,
observes the set event and continues, and `set()` resumes waiter 0. -/
def race : List Turn :=
  [Turn.waiter 0 false, Turn.waiter 1 false, Turn.waiter 0 false, Turn.waiter 0 false,
   Turn.waiter 1 false, Turn.waiter 1 false, Turn.waiter 0 false, Turn.waiter 1 false,
   Turn.setter, Turn.waiter 1 false, Turn.waiter 1 false, Turn.waiter 1 false,
   Turn.setter, Turn.setter]

/-- The number of turns waiter `i` needs to leave `co_await` once the event is
set. -/
def WaiterPc.turns_left : WaiterPc → Nat
  | WaiterPc.ready => 1
  | WaiterPc.suspend => 2
  | WaiterPc.check v => if v = Ptr.this then 1 else 3
  | WaiterPc.cas _ => 2
  | WaiterPc.suspended => 0
  | WaiterPc.finished => 0

/-- Three turns for each of the waiters `0 .. M-1`, one waiter after the
other. -/
def finish_waiters : Nat → List Turn
  | 0 => []
  | M + 1 => finish_waiters M ++ List.replicate 3 (Turn.waiter M false)

/-- The list the setter has still to resume: the list in `m_state` before the
exchange, the rest of the exchanged-out list during the drain. -/
def pending (s : CState) : Ptr :=
  match s.setter with
  | SetterPc.idle => s.m_state
  | SetterPc.drain p => p
  | SetterPc.finished => Ptr.null

/-- The invariant of the interleavings. -/
structure CInv (s : CState) : Prop where
  idle_unset : s.setter = SetterPc.idle → s.m_state ≠ Ptr.this
  busy_set : s.setter ≠ SetterPc.idle → s.m_state = Ptr.this
  cas_ok : ∀ i v, s.pc i = WaiterPc.cas v →
    v ≠ Ptr.this ∧ (s.awaiters i).m_next = v ∧ (s.awaiters i).m_awaitingCoroutine = i
  check_ok : ∀ i v, s.pc i = WaiterPc.check v → (s.awaiters i).m_awaitingCoroutine = i
  list : ∃ L, waiterList s.awaiters (pending s) L ∧ L.Nodup ∧
    (∀ i, i ∈ L ↔ (s.pc i = WaiterPc.suspended ∧ s.ran i = 0)) ∧
    (∀ i ∈ L, (s.awaiters i).m_awaitingCoroutine = i)
  susp : ∀ i, s.pc i = WaiterPc.suspended →
    (s.ran i = 0 ∧ s.calls i = 0) ∨ (s.ran i = 1 ∧ s.calls i = 1)
  fin : ∀ i, s.pc i = WaiterPc.finished → s.ran i = 1 ∧ s.calls i = 0
  prog : ∀ i, s.pc i ≠ WaiterPc.suspended → s.pc i ≠ WaiterPc.finished →
    s.ran i = 0 ∧ s.calls i = 0

/-! ## The gate after a drain -/

/-- The waiter list of the event is `K`: a set event has no waiter, and an event
that is not set holds the list headed by `m_state`. -/
def gate_list (w : World) (K : List Nat) : Prop :=
  (w.m_state = Ptr.this ∧ K = []) ∨
    (w.m_state ≠ Ptr.this ∧ waiterList w.awaiters w.m_state K)

/-- The coroutines of `L` that are suspended at a `co_await` in world `w`, that
is, whose continuation waited on the event again; the last of `L` comes
first. -/
def later_waiters (w : World) (L : List Nat) : List Nat :=
  (L.filter (fun a => !(w.frames a).done)).reverse

/-- A world in which coroutines 3, 2 and 1 are linked into the event, in this
order from the head. When it is resumed, coroutine 3 calls `reset()` and waits
on the event again; coroutines 2 and 1 only produce output. -/
def worldRewait : World :=
  { m_state := Ptr.node 3
    awaiters := fun a => { m_awaitingCoroutine := a,
                           m_next := if a = 3 then Ptr.node 2
                                     else if a = 2 then Ptr.node 1 else Ptr.null }
    frames := fun a => { pc := if a = 3 then [Stmt.reset, Stmt.co_await, Stmt.print]
                               else [Stmt.print],
                         done := false } }

/-- The library call `coroutine_handle::resume()` when the continuation of
coroutine `setter` calls `event.set()` before the rest of its body (a body
`co_await event; event.set(); ...`). The nested `set()` resumes the waiters it
exchanges out with `coroutine_resume`, within `fuel` iterations. Every other
coroutine continues its body as `coroutine_resume` does. -/
def resume_calling_set (setter fuel : Nat) (h : Nat) (w : World) : Option World :=
  if h = setter then
    if (w.frames h).done then none
    else
      match async_manual_reset_event.set coroutine_resume fuel w with
      | none => none
      | some (_, w1) => some (run_body h (w.frames h).pc w1)
  else coroutine_resume h w

/-- A world in which coroutines 2 and 1 are linked into the event, 2 at the
head. When it is resumed, coroutine 2 calls `reset()` and waits on the event
again; coroutine 1 is the one whose continuation calls `event.set()` under
`resume_calling_set 1`, and then produces output. -/
def worldNested : World :=
  { m_state := Ptr.node 2
    awaiters := fun a => { m_awaitingCoroutine := a,
                           m_next := if a = 2 then Ptr.node 1 else Ptr.null }
    frames := fun a => { pc := if a = 2 then [Stmt.reset, Stmt.co_await, Stmt.print]
                               else [Stmt.print],
                         done := false } }

/-! ## Properties of the event -/

open async_manual_reset_event

theorem World.ext_fields {w1 w2 : World} (h1 : w1.m_state = w2.m_state)
    (h2 : w1.awaiters = w2.awaiters) (h3 : w1.frames = w2.frames) : w1 = w2 := by
  cases w1; cases w2; simp_all

@[simp] theorem setAwaiter_m_state (w : World) (a : Nat) (x : awaiter) :
    (w.setAwaiter a x).m_state = w.m_state := rfl

@[simp] theorem setAwaiter_frames (w : World) (a : Nat) (x : awaiter) :
    (w.setAwaiter a x).frames = w.frames := rfl

@[simp] theorem setAwaiter_same (w : World) (a : Nat) (x : awaiter) :
    (w.setAwaiter a x).awaiters a = x := by
  simp [World.setAwaiter]

theorem setAwaiter_other (w : World) (a b : Nat) (x : awaiter) (h : b ≠ a) :
    (w.setAwaiter a x).awaiters b = w.awaiters b := by
  simp [World.setAwaiter, Function.update_noteq h]

@[simp] theorem setFrame_m_state (w : World) (a : Nat) (x : Frame) :
    (w.setFrame a x).m_state = w.m_state := rfl

@[simp] theorem setFrame_awaiters (w : World) (a : Nat) (x : Frame) :
    (w.setFrame a x).awaiters = w.awaiters := rfl

@[simp] theorem setFrame_same (w : World) (a : Nat) (x : Frame) :
    (w.setFrame a x).frames a = x := by
  simp [World.setFrame]

theorem setFrame_other (w : World) (a b : Nat) (x : Frame) (h : b ≠ a) :
    (w.setFrame a x).frames b = w.frames b := by
  simp [World.setFrame, Function.update_noteq h]

/-- Two heaps that agree on the nodes of a list agree on the list. -/
theorem waiterList_congr {aw1 aw2 : Nat → awaiter} :
    ∀ (L : List Nat) (p : Ptr), (∀ a ∈ L, aw2 a = aw1 a) →
      waiterList aw1 p L → waiterList aw2 p L
  | [], _, _, h => h
  | a :: L, p, hag, h => by
    obtain ⟨hp, hrest⟩ := h
    refine ⟨hp, ?_⟩
    rw [hag a (List.mem_cons_self a L)]
    exact waiterList_congr L _ (fun b hb => hag b (List.mem_cons_of_mem a hb)) hrest

/-! ### reset -/

theorem reset_awaiters (w : World) : (reset w).awaiters = w.awaiters := by
  unfold reset
  split <;> rfl

theorem reset_frames (w : World) : (reset w).frames = w.frames := by
  unfold reset
  split <;> rfl

/-- C8: `reset()` turns a set event into an empty one, leaves every other state
(head, awaiter objects with their next links, frames) exactly as it was, and in
both cases touches no awaiter and no coroutine frame, so it resumes nothing. -/
theorem reset_spec (w : World) :
    (w.m_state = Ptr.this → (reset w).m_state = Ptr.null) ∧
    (w.m_state ≠ Ptr.this → reset w = w) ∧
    (reset w).awaiters = w.awaiters ∧ (reset w).frames = w.frames := by
  refine ⟨?_, ?_, reset_awaiters w, reset_frames w⟩
  · intro h
    unfold reset
    simp [h]
  · intro h
    unfold reset
    simp [h]

theorem reset_spec_witness :
    (reset worldSet).m_state = Ptr.null ∧ reset worldResetting = worldResetting :=
  ⟨(reset_spec worldSet).1 rfl, (reset_spec worldResetting).2.1 (by decide)⟩

/-! ### await_suspend -/

theorem await_suspend_unset (self h : Nat) (w : World) (hns : w.m_state ≠ Ptr.this) :
    await_suspend self h w =
      (true, { ((w.setAwaiter self { w.awaiters self with m_awaitingCoroutine := h }).setAwaiter
        self { m_awaitingCoroutine := h, m_next := w.m_state }) with m_state := Ptr.node self }) := by
  unfold await_suspend await_suspend_obs await_suspend_loop
  simp [hns]

theorem await_suspend_set (self h : Nat) (w : World) (hs : w.m_state = Ptr.this) :
    await_suspend self h w =
      (false, w.setAwaiter self { w.awaiters self with m_awaitingCoroutine := h }) := by
  unfold await_suspend await_suspend_obs await_suspend_loop
  simp [hs]

/-- What `await_suspend` leaves behind on an event that is not set: the awaiter
holds the handle and the previous head, the event holds the awaiter, and
nothing else has changed. -/
theorem await_suspend_links (w : World) (self h : Nat) (hns : w.m_state ≠ Ptr.this) :
    (await_suspend self h w).1 = true ∧
    (await_suspend self h w).2.awaiters self
      = { m_awaitingCoroutine := h, m_next := w.m_state } ∧
    (await_suspend self h w).2.m_state = Ptr.node self ∧
    (∀ a, a ≠ self → (await_suspend self h w).2.awaiters a = w.awaiters a) ∧
    (await_suspend self h w).2.frames = w.frames := by
  rw [await_suspend_unset self h w hns]
  refine ⟨rfl, ?_, rfl, ?_, rfl⟩
  · show ((w.setAwaiter self _).setAwaiter self _).awaiters self = _
    simp
  · intro a ha
    show ((w.setAwaiter self _).setAwaiter self _).awaiters a = _
    rw [setAwaiter_other _ _ _ _ ha, setAwaiter_other _ _ _ _ ha]

/-- The list after an enqueue: the new awaiter in front of the old list. -/
theorem waiterList_push (w : World) (self h : Nat) (L : List Nat)
    (hns : w.m_state ≠ Ptr.this) (hL : waiterList w.awaiters w.m_state L) (hnew : self ∉ L) :
    waiterList (await_suspend self h w).2.awaiters (await_suspend self h w).2.m_state
      (self :: L) := by
  obtain ⟨_, e2, e3, e4, _⟩ := await_suspend_links w self h hns
  refine ⟨e3, ?_⟩
  rw [e2]
  exact waiterList_congr L _ (fun a ha => e4 a (fun e => hnew (e ▸ ha))) hL

/-- C9: on an event that is not set, with waiter list `L`, `await_suspend` of
a new awaiter `self` (not in `L`) run without interference returns true, stores
the handle in `self`, points `self.m_next` at the previous head and makes `self`
the head, so the list becomes `self :: L`; every other awaiter object is
unchanged. -/
theorem await_suspend_enqueue (w : World) (self h : Nat) (L : List Nat)
    (hns : w.m_state ≠ Ptr.this) (hL : waiterList w.awaiters w.m_state L) (hnew : self ∉ L) :
    (await_suspend self h w).1 = true ∧
    ((await_suspend self h w).2.awaiters self).m_awaitingCoroutine = h ∧
    ((await_suspend self h w).2.awaiters self).m_next = w.m_state ∧
    (await_suspend self h w).2.m_state = Ptr.node self ∧
    waiterList (await_suspend self h w).2.awaiters (await_suspend self h w).2.m_state (self :: L) ∧
    (∀ a, a ≠ self → (await_suspend self h w).2.awaiters a = w.awaiters a) ∧
    (await_suspend self h w).2.frames = w.frames := by
  obtain ⟨e1, e2, e3, e4, e5⟩ := await_suspend_links w self h hns
  refine ⟨e1, ?_, ?_, e3, waiterList_push w self h L hns hL hnew, e4, e5⟩
  · rw [e2]
  · rw [e2]

theorem await_suspend_enqueue_witness :
    (await_suspend 1 7 worldResetting).1 = true ∧
    (await_suspend 1 7 worldResetting).2.m_state = Ptr.node 1 ∧
    waiterList (await_suspend 1 7 worldResetting).2.awaiters
      (await_suspend 1 7 worldResetting).2.m_state [1, 0] :=
  have t := await_suspend_enqueue worldResetting 1 7 [0] (by decide) ⟨rfl, rfl⟩ (by decide)
  ⟨t.1, t.2.2.2.1, t.2.2.2.2.1⟩

theorem await_suspend_loop_spec (self : Nat) :
    ∀ (reloads : List Ptr) (oldValue : Ptr) (w : World),
      (Ptr.this ∈ oldValue :: reloads →
        (await_suspend_loop self oldValue reloads w).1 = false ∧
        (await_suspend_loop self oldValue reloads w).2.m_state = w.m_state) ∧
      ((await_suspend_loop self oldValue reloads w).1 = true →
        (∀ v ∈ oldValue :: reloads, v ≠ Ptr.this) ∧
        (await_suspend_loop self oldValue reloads w).2.m_state = Ptr.node self ∧
        ((await_suspend_loop self oldValue reloads w).2.awaiters self).m_next =
          (oldValue :: reloads).getLast (List.cons_ne_nil _ _)) ∧
      ((await_suspend_loop self oldValue reloads w).1 = false →
        (await_suspend_loop self oldValue reloads w).2.m_state = w.m_state)
  | [], oldValue, w => by
    unfold await_suspend_loop
    by_cases h : oldValue = Ptr.this
    · simp [h]
    · have h2 : ¬ Ptr.this = oldValue := fun e => h e.symm
      simp [h, h2]
  | v :: rest, oldValue, w => by
    have ih := await_suspend_loop_spec self rest v
      (w.setAwaiter self { w.awaiters self with m_next := oldValue })
    unfold await_suspend_loop
    by_cases h : oldValue = Ptr.this
    · simp [h]
    · have h2 : ¬ Ptr.this = oldValue := fun e => h e.symm
      simp only [h, if_false]
      refine ⟨?_, ?_, ?_⟩
      · intro hm
        have hm2 : Ptr.this ∈ v :: rest := by
          rcases List.mem_cons.mp hm with e | e
          · exact absurd e h2
          · exact e
        exact ih.1 hm2
      · intro ht
        obtain ⟨ha, hb, hc⟩ := ih.2.1 ht
        refine ⟨?_, hb, ?_⟩
        · intro x hx
          rcases List.mem_cons.mp hx with e | e
          · exact e ▸ h
          · exact ha x e
        · rw [hc, List.getLast_cons (List.cons_ne_nil v rest)]
      · intro hf
        exact ih.2.2 hf

/-- Spurious failures of `compare_exchange_weak`, which reload the value the
loop already holds, do not change what `await_suspend` returns or writes. -/
theorem await_suspend_loop_spurious (self : Nat) (v : Ptr) :
    ∀ (k : Nat) (w : World),
      await_suspend_loop self v (List.replicate k v) w = await_suspend_loop self v [] w
  | 0, _ => rfl
  | k + 1, w => by
    rw [List.replicate_succ]
    conv_lhs => unfold await_suspend_loop
    by_cases h : v = Ptr.this
    · simp only [h, if_true]
      unfold await_suspend_loop
      simp
    · simp only [h, if_false]
      rw [await_suspend_loop_spurious self v k]
      unfold await_suspend_loop
      simp [h, World.setAwaiter]

/-- C10: whatever values the loop of `await_suspend` observes (the initial load
and the reloads of failed compare-exchanges), if one of them is the set sentinel
the call returns false and leaves `m_state` unwritten; when it returns true no
observed value was the sentinel, the expected value of the successful
compare-exchange (the last observed value, kept in `m_next`) is not the
sentinel, and `m_state` holds the awaiter; when it returns false `m_state` is
unwritten. -/
theorem await_suspend_never_links_into_set (self h : Nat) (loaded : Ptr) (reloads : List Ptr)
    (w : World) :
    (Ptr.this ∈ loaded :: reloads →
      (await_suspend_obs self h loaded reloads w).1 = false ∧
      (await_suspend_obs self h loaded reloads w).2.m_state = w.m_state) ∧
    ((await_suspend_obs self h loaded reloads w).1 = true →
      (∀ v ∈ loaded :: reloads, v ≠ Ptr.this) ∧
      (loaded :: reloads).getLast (List.cons_ne_nil _ _) ≠ Ptr.this ∧
      ((await_suspend_obs self h loaded reloads w).2.awaiters self).m_next =
        (loaded :: reloads).getLast (List.cons_ne_nil _ _) ∧
      (await_suspend_obs self h loaded reloads w).2.m_state = Ptr.node self) ∧
    ((await_suspend_obs self h loaded reloads w).1 = false →
      (await_suspend_obs self h loaded reloads w).2.m_state = w.m_state) := by
  unfold await_suspend_obs
  have t := await_suspend_loop_spec self reloads loaded
    (w.setAwaiter self { w.awaiters self with m_awaitingCoroutine := h })
  refine ⟨fun hm => t.1 hm, fun ht => ?_, fun hf => t.2.2 hf⟩
  obtain ⟨ha, hb, hc⟩ := t.2.1 ht
  exact ⟨ha, ha _ (List.getLast_mem _), hc, hb⟩

theorem await_suspend_never_links_into_set_witness :
    (await_suspend_obs 1 7 Ptr.null [Ptr.node 0, Ptr.this, Ptr.null] worldResetting).1 = false ∧
    (await_suspend_obs 1 7 Ptr.null [Ptr.node 0, Ptr.this, Ptr.null] worldResetting).2.m_state
      = worldResetting.m_state :=
  (await_suspend_never_links_into_set 1 7 Ptr.null [Ptr.node 0, Ptr.this, Ptr.null]
    worldResetting).1 (by decide)

/-! ### set -/

theorem set_of_set (resume : Nat → World → Option World) (fuel : Nat) (w : World)
    (hs : w.m_state = Ptr.this) : set resume fuel w = some ([], w) := by
  unfold async_manual_reset_event.set
  simp only [hs, ne_eq, not_true_eq_false, if_false]
  congr 2
  exact World.ext_fields hs.symm rfl rfl

/-- C7, the claim refuted: with a waiter whose continuation calls `reset()`, one
`set()` ends with the event empty while two calls in a row end with it set. -/
theorem set_twice_differs :
    (set coroutine_resume 1 worldResetting).map (fun r => (r.1, r.2.m_state))
      = some ([0], Ptr.null) ∧
    (set_twice coroutine_resume 1 worldResetting).map (fun r => (r.1, r.2.m_state))
      = some ([0], Ptr.this) := by
  constructor <;> rfl

/-- C7, amended: on an event that is already set, `set()` resumes nothing and
leaves the world as it is; consequently, whenever a first `set()` returns with
the event still set, calling `set()` twice in a row resumes the same handles and
ends in the same world as calling it once. -/
theorem set_idempotent (resume : Nat → World → Option World) (fuel : Nat) (w : World) :
    (w.m_state = Ptr.this → set resume fuel w = some ([], w)) ∧
    (∀ hs w1, set resume fuel w = some (hs, w1) → w1.m_state = Ptr.this →
      set_twice resume fuel w = some (hs, w1)) := by
  refine ⟨set_of_set resume fuel w, ?_⟩
  intro hs w1 h1 hset
  unfold set_twice
  rw [h1]
  simp only
  rw [set_of_set resume fuel w1 hset]
  simp

theorem set_idempotent_witness :
    set coroutine_resume 1 worldSet = some ([], worldSet) ∧
    set_twice coroutine_resume 1 worldWaiting =
      some ([0], ({ worldWaiting with m_state := Ptr.this } : World).setFrame 0
        { pc := [], done := true }) :=
  ⟨(set_idempotent coroutine_resume 1 worldSet).1 rfl,
   (set_idempotent coroutine_resume 1 worldWaiting).2 [0] _ rfl rfl⟩

/-! ### The already-set fast path -/

theorem call_run_of_set (resume : Nat → World → Option World) (fuel : Nat) (c : Call)
    (w : World) (hs : w.m_state = Ptr.this) :
    ∃ o w1, c.run resume fuel w = some (o, w1) ∧ o.not_suspending = true ∧
      w1.m_state = Ptr.this ∧ (∀ a, (w1.awaiters a).m_next = (w.awaiters a).m_next) ∧
      w1.frames = w.frames := by
  cases c with
  | is_set =>
    exact ⟨_, _, rfl, by simp [Outcome.not_suspending, is_set, hs], hs, fun _ => rfl, rfl⟩
  | set =>
    refine ⟨Outcome.set [], w, ?_, rfl, hs, fun _ => rfl, rfl⟩
    simp [Call.run, set_of_set resume fuel w hs]
  | await_ready =>
    exact ⟨_, _, rfl, by simp [Outcome.not_suspending, await_ready, is_set, hs], hs,
      fun _ => rfl, rfl⟩
  | await_suspend self h =>
    refine ⟨_, _, rfl, ?_, ?_, ?_, ?_⟩
    · simp [Outcome.not_suspending, await_suspend_set self h w hs]
    · simp [await_suspend_set self h w hs, hs]
    · intro a
      rw [await_suspend_set self h w hs]
      by_cases e : a = self
      · subst e; simp
      · simp only [setAwaiter_other _ _ _ _ e]
    · simp [await_suspend_set self h w hs]

/-- C3: once the event is set (`is_set()` returned true), every sequence of
`is_set()`, `set()`, `await_ready()` and `await_suspend()` calls, so without
`reset()`, runs to the end; every `is_set()` and `await_ready()` in it returns
true, every `await_suspend()` returns false, every `set()` resumes nothing, the
event is still set afterwards, and no awaiter has been linked: `m_next` of every
awaiter and all frames are as before. -/
theorem already_set_fast_path (resume : Nat → World → Option World) (fuel : Nat) :
    ∀ (cs : List Call) (w : World), is_set w = true →
      ∃ os w1, run_calls resume fuel cs w = some (os, w1) ∧ os.length = cs.length ∧
        (∀ o ∈ os, o.not_suspending = true) ∧ is_set w1 = true ∧
        (∀ a, (w1.awaiters a).m_next = (w.awaiters a).m_next) ∧ w1.frames = w.frames
  | [], w, hs => ⟨[], w, rfl, rfl, by simp, hs, fun _ => rfl, rfl⟩
  | c :: cs, w, hs => by
    have hs1 : w.m_state = Ptr.this := by simpa [is_set] using hs
    obtain ⟨o, w1, hrun, ho, hm, hn, hf⟩ := call_run_of_set resume fuel c w hs1
    obtain ⟨os, w2, hrun2, hlen, hos, hset2, hn2, hf2⟩ :=
      already_set_fast_path resume fuel cs w1 (by simp [is_set, hm])
    refine ⟨o :: os, w2, ?_, by simp [hlen], ?_, hset2, ?_, hf2.trans hf⟩
    · simp [run_calls, hrun, hrun2]
    · intro x hx
      rcases List.mem_cons.mp hx with e | e
      · exact e ▸ ho
      · exact hos x e
    · intro a
      rw [hn2 a, hn a]

theorem already_set_fast_path_witness :
    ∃ os w1, run_calls coroutine_resume 0
        [Call.await_ready, Call.await_suspend 3 3, Call.set, Call.is_set] worldSet
        = some (os, w1) ∧ os.length = 4 ∧
      (∀ o ∈ os, o.not_suspending = true) ∧ is_set w1 = true ∧
      (∀ a, (w1.awaiters a).m_next = (worldSet.awaiters a).m_next) ∧
      w1.frames = worldSet.frames :=
  already_set_fast_path coroutine_resume 0
    [Call.await_ready, Call.await_suspend 3 3, Call.set, Call.is_set] worldSet rfl

/-! ## Properties of the tasks -/

/-- C4: `resume()` on a completed `CoroTask` (null handle, or `done()`) returns
false and leaves the whole world (event, awaiters, frames) as it was, whatever
that world is; the same holds for `CoTask::resume` over any frame state. -/
theorem resume_completed (t : CoroTask) (w : World) {σ : Type} (done : Nat → σ → Bool)
    (resume : Nat → σ → Option σ) (_handle : Option Nat) (s : σ) :
    ((t.hdl = none ∨ ∃ h, t.hdl = some h ∧ (w.frames h).done = true) →
      t.resume w = some (false, w)) ∧
    ((_handle = none ∨ ∃ h, _handle = some h ∧ done h s = true) →
      CoTask.resume done resume _handle s = some (false, s)) := by
  constructor
  · rintro (h | ⟨h, h1, h2⟩)
    · simp [CoroTask.resume, h]
    · simp [CoroTask.resume, h1, h2]
  · rintro (h | ⟨h, h1, h2⟩)
    · simp [CoTask.resume, h]
    · simp [CoTask.resume, h1, h2]

theorem resume_completed_witness :
    (CoroTask.mk (some 0)).resume worldDone = some (false, worldDone) ∧
    CoTask.resume (fun _ (s : Bool) => s) (fun _ _ => some false) (some 5) true
      = some (false, true) :=
  ⟨(resume_completed (CoroTask.mk (some 0)) worldDone (fun _ (s : Bool) => s)
      (fun _ _ => some false) (some 5) true).1 (Or.inr ⟨0, rfl, rfl⟩),
   (resume_completed (CoroTask.mk none) worldDone (fun _ (s : Bool) => s)
      (fun _ _ => some false) (some 5) true).2 (Or.inr ⟨5, rfl, rfl⟩)⟩

theorem run_body_prints (h : Nat) (rest : List Stmt) (w : World) :
    ∀ i : Nat, run_body h (List.replicate i Stmt.print ++ rest) w = run_body h rest w
  | 0 => by simp
  | i + 1 => by
    rw [List.replicate_succ, List.cons_append, run_body]
    exact run_body_prints h rest w i

theorem run_body_only_prints (h : Nat) (w : World) (j : Nat) :
    run_body h (List.replicate j Stmt.print) w = w.setFrame h { pc := [], done := true } := by
  have t := run_body_prints h [] w j
  rw [List.append_nil] at t
  rw [t, run_body]

/-- Running the body of coroutine `h` touches no awaiter and no frame other than
its own. -/
theorem run_body_others (h : Nat) :
    ∀ (stmts : List Stmt) (w : World) (b : Nat), b ≠ h →
      (run_body h stmts w).awaiters b = w.awaiters b ∧
      (run_body h stmts w).frames b = w.frames b
  | [], w, b, hb => by
    rw [run_body]
    exact ⟨rfl, setFrame_other _ _ _ _ hb⟩
  | Stmt.print :: rest, w, b, hb => by
    rw [run_body]
    exact run_body_others h rest w b hb
  | Stmt.reset :: rest, w, b, hb => by
    rw [run_body]
    have t := run_body_others h rest (reset w) b hb
    rw [reset_awaiters w, reset_frames w] at t
    exact t
  | Stmt.co_await :: rest, w, b, hb => by
    rw [run_body]
    by_cases hs : w.m_state = Ptr.this
    · have hr : await_ready w = true := by simp [await_ready, is_set, hs]
      simp only [hr, if_true]
      exact run_body_others h rest w b hb
    · have hr : await_ready w = false := by simp [await_ready, is_set, hs]
      simp only [hr]
      rw [await_suspend_unset h h w hs]
      simp only [if_true, Bool.false_eq_true, if_false]
      refine ⟨?_, ?_⟩
      · show ((w.setAwaiter h _).setAwaiter h _).awaiters b = _
        rw [setAwaiter_other _ _ _ _ hb, setAwaiter_other _ _ _ _ hb]
      · exact setFrame_other _ _ _ _ hb

/-! ### The drain of set() -/

/-- The drain loop over a list of distinct awaiters, each holding the handle of
its own frame, for any `resume` that returns on a resumable coroutine and leaves
the awaiters and the resumability of the other coroutines alone: the loop
resumes the whole list, in list order. -/
theorem drain_general (resume : Nat → World → Option World) (ok : Nat → World → Prop)
    (hres : ∀ a w, ok a w → ∃ w1, resume a w = some w1 ∧
      ∀ b, b ≠ a → w1.awaiters b = w.awaiters b ∧ (ok b w → ok b w1)) :
    ∀ (L : List Nat) (fuel : Nat) (p : Ptr) (w : World), L.length ≤ fuel →
      waiterList w.awaiters p L → L.Nodup →
      (∀ a ∈ L, (w.awaiters a).m_awaitingCoroutine = a ∧ ok a w) →
      ∃ w1, drain resume fuel p w = some (L, w1)
  | [], fuel, p, w, _, hL, _, _ => by
    have hp : p = Ptr.null := hL
    subst hp
    exact ⟨w, by cases fuel <;> rfl⟩
  | a :: L, 0, _, _, hf, _, _, _ => by simp at hf
  | a :: L, fuel + 1, p, w, hf, hL, hnd, hall => by
    obtain ⟨hp, hrest⟩ := hL
    subst hp
    obtain ⟨hh, hok⟩ := hall a (List.mem_cons_self a L)
    obtain ⟨w1, hr, hfr⟩ := hres a w hok
    have hne : ∀ b ∈ L, b ≠ a := by
      intro b hb e
      exact (List.nodup_cons.mp hnd).1 (e ▸ hb)
    obtain ⟨w2, hd⟩ := drain_general resume ok hres L fuel (w.awaiters a).m_next w1
      (by simpa using hf)
      (waiterList_congr L _ (fun b hb => (hfr b (hne b hb)).1) hrest)
      (List.nodup_cons.mp hnd).2
      (fun b hb => by
        obtain ⟨h1, h2⟩ := hall b (List.mem_cons_of_mem a hb)
        exact ⟨by rw [(hfr b (hne b hb)).1]; exact h1, (hfr b (hne b hb)).2 h2⟩)
    refine ⟨w2, ?_⟩
    rw [drain]
    simp only [hh, hr, hd]

/-- The model of `coroutine_handle::resume()` returns on a coroutine that is not
done and touches only that coroutine's awaiter and frame. -/
theorem coroutine_resume_frame (a : Nat) (w : World) (hok : (w.frames a).done = false) :
    ∃ w1, coroutine_resume a w = some w1 ∧
      ∀ b, b ≠ a → w1.awaiters b = w.awaiters b ∧
        ((w.frames b).done = false → (w1.frames b).done = false) := by
  refine ⟨run_body a (w.frames a).pc w, by simp [coroutine_resume, hok], ?_⟩
  intro b hb
  obtain ⟨h1, h2⟩ := run_body_others a (w.frames a).pc w b hb
  exact ⟨h1, fun h => by rw [h2]; exact h⟩

theorem suspend_all_spec :
    ∀ (hs : List Nat) (w : World) (L : List Nat), w.m_state ≠ Ptr.this →
      waiterList w.awaiters w.m_state L → (∀ h ∈ hs, h ∉ L) → hs.Nodup →
      (suspend_all hs w).1 = List.replicate hs.length true ∧
      waiterList (suspend_all hs w).2.awaiters (suspend_all hs w).2.m_state (hs.reverse ++ L) ∧
      (suspend_all hs w).2.m_state ≠ Ptr.this ∧
      (suspend_all hs w).2.frames = w.frames ∧
      (∀ h ∈ hs, ((suspend_all hs w).2.awaiters h).m_awaitingCoroutine = h) ∧
      (∀ a, a ∉ hs → (suspend_all hs w).2.awaiters a = w.awaiters a)
  | [], w, L, hns, hL, _, _ => by
    simp [suspend_all, hns, hL]
  | h :: hs, w, L, hns, hL, hdisj, hnd => by
    obtain ⟨e1, e2, e4, e6, e7⟩ := await_suspend_links w h h hns
    have e5 := waiterList_push w h h L hns hL (hdisj h (List.mem_cons_self h hs))
    have hnd2 := List.nodup_cons.mp hnd
    have ih := suspend_all_spec hs (await_suspend h h w).2 (h :: L)
      (by rw [e4]; simp) e5
      (by
        intro x hx hmem
        rcases List.mem_cons.mp hmem with e | e
        · exact hnd2.1 (e ▸ hx)
        · exact hdisj x (List.mem_cons_of_mem h hx) e)
      hnd2.2
    obtain ⟨i1, i2, i3, i4, i5, i6⟩ := ih
    simp only [suspend_all]
    refine ⟨?_, ?_, i3, i4.trans e7, ?_, ?_⟩
    · rw [i1, e1, List.length_cons, List.replicate_succ]
    · rw [List.reverse_cons, List.append_assoc]
      exact i2
    · intro x hx
      rcases List.mem_cons.mp hx with e | e
      · subst e
        rw [i6 x hnd2.1, e2]
      · exact i5 x e
    · intro a ha
      have ha1 : a ≠ h := fun e => ha (e ▸ List.mem_cons_self h hs)
      have ha2 : a ∉ hs := fun e => ha (List.mem_cons_of_mem h e)
      rw [i6 a ha2, e6 a ha1]

/-- C1: on an empty event, distinct coroutines `hs` (none of them finished) that
call `await_suspend` one after the other are all enqueued (every call returns
true), and a single `set()` with enough fuel for the loop then resumes exactly
these coroutines, last enqueued first, whatever their continuations do. -/
theorem lifo_drain_order (w : World) (hs : List Nat) (fuel : Nat) (h0 : w.m_state = Ptr.null)
    (hnd : hs.Nodup) (hfr : ∀ h ∈ hs, (w.frames h).done = false) (hfuel : hs.length ≤ fuel) :
    (suspend_all hs w).1 = List.replicate hs.length true ∧
    ∃ w1, set coroutine_resume fuel (suspend_all hs w).2 = some (hs.reverse, w1) := by
  obtain ⟨s1, s2, s3, s4, s5, _⟩ := suspend_all_spec hs w [] (by rw [h0]; simp)
    (by rw [h0]; rfl) (by simp) hnd
  refine ⟨s1, ?_⟩
  rw [List.append_nil] at s2
  unfold async_manual_reset_event.set
  simp only [ne_eq, s3, not_false_eq_true, if_true]
  exact drain_general coroutine_resume (fun a w => (w.frames a).done = false)
    coroutine_resume_frame hs.reverse fuel _ _ (by simpa using hfuel) s2
    (List.nodup_reverse.mpr hnd)
    (fun a ha => ⟨s5 a (List.mem_reverse.mp ha), by
      show ((suspend_all hs w).2.frames a).done = false
      rw [s4]; exact hfr a (List.mem_reverse.mp ha)⟩)

theorem lifo_drain_order_witness :
    (suspend_all [1, 2, 3] world0).1 = List.replicate 3 true ∧
    ∃ w1, set coroutine_resume 3 (suspend_all [1, 2, 3] world0).2 = some ([3, 2, 1], w1) :=
  lifo_drain_order world0 [1, 2, 3] 3 rfl (by decide) (fun _ _ => rfl) (by decide)

/-! ### Scenarios -/

/-- The body of the source's `consumer` is a body that waits once. -/
theorem consumer_wait_once : consumer = wait_once 1 1 := rfl

theorem drain_null (resume : Nat → World → Option World) (fuel : Nat) (w : World) :
    drain resume fuel Ptr.null w = some ([], w) := by
  cases fuel <;> rfl

theorem run_body_wait_once (h i j : Nat) (w : World) (hns : w.m_state ≠ Ptr.this) :
    run_body h (wait_once i j) w =
      (await_suspend h h w).2.setFrame h { pc := List.replicate j Stmt.print, done := false } := by
  unfold wait_once
  rw [run_body_prints, run_body]
  simp [await_ready, is_set, hns, await_suspend_unset]

theorem run_body_wait_once_set (h i j : Nat) (w : World) (hs : w.m_state = Ptr.this) :
    run_body h (wait_once i j) w = w.setFrame h { pc := [], done := true } := by
  unfold wait_once
  rw [run_body_prints, run_body]
  simp [await_ready, is_set, hs, run_body_only_prints]

theorem resume_at_wait (h i j : Nat) (w : World) (hns : w.m_state ≠ Ptr.this)
    (hf : w.frames h = { pc := wait_once i j, done := false }) :
    (CoroTask.mk (some h)).resume w = some (true,
      (await_suspend h h w).2.setFrame h { pc := List.replicate j Stmt.print, done := false }) := by
  simp [CoroTask.resume, coroutine_resume, hf, run_body_wait_once h i j w hns]

theorem set_single (h j fuel : Nat) (w : World) (hm : w.m_state = Ptr.node h)
    (hh : (w.awaiters h).m_awaitingCoroutine = h) (hn : (w.awaiters h).m_next = Ptr.null)
    (hf : w.frames h = { pc := List.replicate j Stmt.print, done := false }) :
    set coroutine_resume (fuel + 1) w =
      some ([h], ({ w with m_state := Ptr.this } : World).setFrame h { pc := [], done := true }) := by
  unfold async_manual_reset_event.set
  simp only [hm, ne_eq, reduceCtorEq, not_false_eq_true, if_true]
  rw [drain]
  simp only [hh, hn, coroutine_resume, hf, Bool.false_eq_true, if_false, run_body_only_prints,
    drain_null]

/-- C5 (scenario A): on an event constructed unset, creating a job whose body
waits once runs none of the body; the first `resume()` runs the body up to the
wait, links the job into the event and returns true; `set()` then resumes
exactly this job, which runs to its end; afterwards `is_set()` is true and
`resume()` returns false without any effect. -/
theorem scenario_A (awaiters : Nat → awaiter) (frames : Nat → Frame) (h i j fuel : Nat) :
    ((CoroTask.create h (wait_once i j) (init false awaiters frames)).2.frames h
        = { pc := wait_once i j, done := false } ∧
      (CoroTask.create h (wait_once i j) (init false awaiters frames)).2.m_state = Ptr.null ∧
      (CoroTask.create h (wait_once i j) (init false awaiters frames)).2.awaiters = awaiters) ∧
    ∃ w1 w2,
      (CoroTask.create h (wait_once i j) (init false awaiters frames)).1.resume
        (CoroTask.create h (wait_once i j) (init false awaiters frames)).2 = some (true, w1) ∧
      w1.frames h = { pc := List.replicate j Stmt.print, done := false } ∧
      w1.m_state = Ptr.node h ∧ waiterList w1.awaiters w1.m_state [h] ∧
      (w1.awaiters h).m_awaitingCoroutine = h ∧
      set coroutine_resume (fuel + 1) w1 = some ([h], w2) ∧
      (w2.frames h).done = true ∧ is_set w2 = true ∧
      (CoroTask.create h (wait_once i j) (init false awaiters frames)).1.resume w2
        = some (false, w2) := by
  refine ⟨⟨by simp [CoroTask.create], rfl, rfl⟩, ?_⟩
  have hns : (CoroTask.create h (wait_once i j) (init false awaiters frames)).2.m_state
      ≠ Ptr.this := by simp [CoroTask.create, init]
  obtain ⟨_, s2, s4, _, _⟩ := await_suspend_links
    (CoroTask.create h (wait_once i j) (init false awaiters frames)).2 h h hns
  have s5 := waiterList_push
    (CoroTask.create h (wait_once i j) (init false awaiters frames)).2 h h [] hns rfl (by simp)
  refine ⟨_, _, resume_at_wait h i j _ hns (by simp [CoroTask.create]), by simp, s4, s5,
    by rw [setFrame_awaiters, s2],
    set_single h j fuel _ s4 (by rw [setFrame_awaiters, s2]) (by rw [setFrame_awaiters, s2]; rfl)
      (by simp), by simp, by simp [is_set], ?_⟩
  simp [CoroTask.resume, CoroTask.create]

/-- C6 (scenario B): an event constructed with `initiallySet = true` is set, and
a job whose body waits once on it does not suspend: the first `resume()` runs
the body to its end and returns false, the event is still set, no awaiter
object has been written (nothing is linked), and a driver that counts the
suspensions reported by `resume()` counts zero. -/
theorem scenario_B (awaiters : Nat → awaiter) (frames : Nat → Frame) (h i j n : Nat) :
    is_set (init true awaiters frames) = true ∧
    ∃ w1,
      (CoroTask.create h (wait_once i j) (init true awaiters frames)).1.resume
        (CoroTask.create h (wait_once i j) (init true awaiters frames)).2 = some (false, w1) ∧
      w1.m_state = Ptr.this ∧ w1.awaiters = awaiters ∧
      w1.frames h = { pc := [], done := true } ∧
      count_suspensions (CoroTask.create h (wait_once i j) (init true awaiters frames)).1 (n + 1)
        (CoroTask.create h (wait_once i j) (init true awaiters frames)).2 = some (0, w1) := by
  have hr : (CoroTask.create h (wait_once i j) (init true awaiters frames)).1.resume
      (CoroTask.create h (wait_once i j) (init true awaiters frames)).2 = some (false,
        (CoroTask.create h (wait_once i j) (init true awaiters frames)).2.setFrame h
          { pc := [], done := true }) := by
    have hs : (CoroTask.create h (wait_once i j) (init true awaiters frames)).2.m_state
        = Ptr.this := rfl
    have hb := run_body_wait_once_set h i j _ hs
    simp only [CoroTask.create] at hb
    simp [CoroTask.resume, coroutine_resume, CoroTask.create, hb]
  refine ⟨rfl, _, hr, rfl, rfl, by simp, ?_⟩
  rw [count_suspensions, hr]

/-! ## Interleavings: no lost wakeup -/

theorem CInv.init (awaiters : Nat → awaiter) : CInv (CState.init awaiters) where
  idle_unset := fun _ => by simp [CState.init]
  busy_set := fun h => absurd rfl h
  cas_ok := fun i v h => by simp [CState.init] at h
  check_ok := fun i v h => by simp [CState.init] at h
  list := ⟨[], rfl, List.nodup_nil, fun i => by simp [CState.init], fun i h => by simp at h⟩
  susp := fun i h => by simp [CState.init] at h
  fin := fun i h => by simp [CState.init] at h
  prog := fun i _ _ => ⟨rfl, rfl⟩

/-- A turn of waiter `i` that only moves it between positions inside
`await_ready`/`await_suspend` and writes only its own awaiter keeps the
invariant. -/
theorem CInv.local_step {s t : CState} (i : Nat) (hinv : CInv s)
    (hm : t.m_state = s.m_state) (hset : t.setter = s.setter) (hran : t.ran = s.ran)
    (hcalls : t.calls = s.calls)
    (hpc : ∀ j, j ≠ i → t.pc j = s.pc j) (haw : ∀ j, j ≠ i → t.awaiters j = s.awaiters j)
    (h1 : s.pc i ≠ WaiterPc.suspended) (h2 : s.pc i ≠ WaiterPc.finished)
    (h3 : t.pc i ≠ WaiterPc.suspended) (h4 : t.pc i ≠ WaiterPc.finished)
    (h5 : ∀ v, t.pc i = WaiterPc.cas v →
      v ≠ Ptr.this ∧ (t.awaiters i).m_next = v ∧ (t.awaiters i).m_awaitingCoroutine = i)
    (h6 : ∀ v, t.pc i = WaiterPc.check v → (t.awaiters i).m_awaitingCoroutine = i) :
    CInv t := by
  have hpend : pending t = pending s := by
    unfold pending
    rw [hset, hm]
  refine ⟨?_, ?_, ?_, ?_, ?_, ?_, ?_, ?_⟩
  · rw [hset, hm]; exact hinv.idle_unset
  · rw [hset, hm]; exact hinv.busy_set
  · intro j v hj
    by_cases e : j = i
    · subst e; exact h5 v hj
    · rw [haw j e]; rw [hpc j e] at hj; exact hinv.cas_ok j v hj
  · intro j v hj
    by_cases e : j = i
    · subst e; exact h6 v hj
    · rw [haw j e]; rw [hpc j e] at hj; exact hinv.check_ok j v hj
  · obtain ⟨L, l1, l2, l3, l4⟩ := hinv.list
    have hi : i ∉ L := fun h => h1 ((l3 i).mp h).1
    have hne : ∀ j ∈ L, j ≠ i := fun j hj e => hi (e ▸ hj)
    refine ⟨L, ?_, l2, ?_, ?_⟩
    · rw [hpend]
      exact waiterList_congr L _ (fun a ha => haw a (hne a ha)) l1
    · intro j
      by_cases e : j = i
      · subst e
        constructor
        · intro h; exact absurd h hi
        · intro h; exact absurd h.1 h3
      · rw [hpc j e, hran]; exact l3 j
    · intro j hj
      rw [haw j (hne j hj)]; exact l4 j hj
  · intro j hj
    by_cases e : j = i
    · subst e; exact absurd hj h3
    · rw [hran, hcalls]; rw [hpc j e] at hj; exact hinv.susp j hj
  · intro j hj
    by_cases e : j = i
    · subst e; exact absurd hj h4
    · rw [hran, hcalls]; rw [hpc j e] at hj; exact hinv.fin j hj
  · intro j hj1 hj2
    rw [hran, hcalls]
    by_cases e : j = i
    · subst e; exact hinv.prog j h1 h2
    · rw [hpc j e] at hj1 hj2; exact hinv.prog j hj1 hj2

/-- A turn in which waiter `i` continues without suspending keeps the
invariant. -/
theorem CInv.finish_step {s : CState} (i : Nat) (hinv : CInv s)
    (h1 : s.pc i ≠ WaiterPc.suspended) (h2 : s.pc i ≠ WaiterPc.finished) :
    CInv { s with pc := Function.update s.pc i WaiterPc.finished
                  ran := Function.update s.ran i (s.ran i + 1) } := by
  obtain ⟨r0, c0⟩ := hinv.prog i h1 h2
  refine ⟨hinv.idle_unset, hinv.busy_set, ?_, ?_, ?_, ?_, ?_, ?_⟩
  · intro j v hj
    by_cases e : j = i
    · subst e; simp at hj
    · simp only [Function.update_noteq e] at hj; exact hinv.cas_ok j v hj
  · intro j v hj
    by_cases e : j = i
    · subst e; simp at hj
    · simp only [Function.update_noteq e] at hj; exact hinv.check_ok j v hj
  · obtain ⟨L, l1, l2, l3, l4⟩ := hinv.list
    refine ⟨L, l1, l2, ?_, l4⟩
    intro j
    by_cases e : j = i
    · subst e
      simp only [Function.update_same]
      constructor
      · intro h; exact absurd ((l3 j).mp h).1 h1
      · intro h; simp at h
    · simp only [Function.update_noteq e]; exact l3 j
  · intro j hj
    by_cases e : j = i
    · subst e; simp at hj
    · simp only [Function.update_noteq e] at hj ⊢; exact hinv.susp j hj
  · intro j hj
    by_cases e : j = i
    · subst e; simp only [Function.update_same]; exact ⟨by rw [r0], c0⟩
    · simp only [Function.update_noteq e] at hj ⊢; exact hinv.fin j hj
  · intro j hj1 hj2
    by_cases e : j = i
    · subst e; simp at hj2
    · simp only [Function.update_noteq e] at hj1 hj2 ⊢; exact hinv.prog j hj1 hj2

/-- The successful compare-exchange of waiter `i` keeps the invariant: it
happens before the exchange of `set()` and puts `i` in front of the list. -/
theorem CInv.cas_step {s : CState} (i : Nat) (v : Ptr) (hinv : CInv s)
    (hpc : s.pc i = WaiterPc.cas v) (hm : s.m_state = v) :
    CInv { s with m_state := Ptr.node i
                  pc := Function.update s.pc i WaiterPc.suspended } := by
  obtain ⟨hv, hnext, hhandle⟩ := hinv.cas_ok i v hpc
  have h1 : s.pc i ≠ WaiterPc.suspended := by rw [hpc]; simp
  have h2 : s.pc i ≠ WaiterPc.finished := by rw [hpc]; simp
  obtain ⟨r0, c0⟩ := hinv.prog i h1 h2
  have hidle : s.setter = SetterPc.idle := by
    by_contra hc
    exact hv (hm ▸ hinv.busy_set hc)
  refine ⟨fun _ => by simp, fun h => absurd hidle h, ?_, ?_, ?_, ?_, ?_, ?_⟩
  · intro j w hj
    by_cases e : j = i
    · subst e; simp at hj
    · simp only [Function.update_noteq e] at hj; exact hinv.cas_ok j w hj
  · intro j w hj
    by_cases e : j = i
    · subst e; simp at hj
    · simp only [Function.update_noteq e] at hj; exact hinv.check_ok j w hj
  · obtain ⟨L, l1, l2, l3, l4⟩ := hinv.list
    have hi : i ∉ L := fun h => h1 ((l3 i).mp h).1
    have hp : pending s = v := by unfold pending; rw [hidle]; exact hm
    refine ⟨i :: L, ?_, List.nodup_cons.mpr ⟨hi, l2⟩, ?_, ?_⟩
    · have hp2 : ∀ t : CState, t.setter = SetterPc.idle → pending t = t.m_state := by
        intro t ht; unfold pending; rw [ht]
      rw [hp2 (CState.mk (Ptr.node i) s.awaiters (Function.update s.pc i WaiterPc.suspended)
        s.setter s.ran s.calls) hidle]
      refine ⟨rfl, ?_⟩
      show waiterList s.awaiters (s.awaiters i).m_next L
      rw [hnext, ← hp]; exact l1
    · intro j
      by_cases e : j = i
      · subst e; simp [r0]
      · simp only [Function.update_noteq e, List.mem_cons, e, false_or]; exact l3 j
    · intro j hj
      rcases List.mem_cons.mp hj with e | e
      · subst e; exact hhandle
      · exact l4 j e
  · intro j hj
    by_cases e : j = i
    · subst e; exact Or.inl ⟨r0, c0⟩
    · simp only [Function.update_noteq e] at hj; exact hinv.susp j hj
  · intro j hj
    by_cases e : j = i
    · subst e; simp at hj
    · simp only [Function.update_noteq e] at hj; exact hinv.fin j hj
  · intro j hj1 hj2
    by_cases e : j = i
    · subst e; simp at hj1
    · simp only [Function.update_noteq e] at hj1 hj2; exact hinv.prog j hj1 hj2

/-- A turn of the setter keeps the invariant. -/
theorem CInv.step_setter {s : CState} (hinv : CInv s) : CInv (step_setter s) := by
  unfold Coro.step_setter
  split
  · -- the exchange
    rename_i hidle
    have hu := hinv.idle_unset hidle
    simp only [ne_eq, hu, not_false_eq_true, if_true]
    refine ⟨fun h => by simp at h, fun _ => rfl, hinv.cas_ok, hinv.check_ok, ?_, hinv.susp,
      hinv.fin, hinv.prog⟩
    obtain ⟨L, l1, l2, l3, l4⟩ := hinv.list
    refine ⟨L, ?_, l2, l3, l4⟩
    have hp : pending s = s.m_state := by unfold pending; rw [hidle]
    rw [hp] at l1
    exact l1
  · -- the loop ends
    rename_i hd
    have hb := hinv.busy_set (by rw [hd]; simp)
    refine ⟨fun h => by simp at h, fun _ => hb, hinv.cas_ok, hinv.check_ok, ?_, hinv.susp,
      hinv.fin, hinv.prog⟩
    obtain ⟨L, l1, l2, l3, l4⟩ := hinv.list
    refine ⟨L, ?_, l2, l3, l4⟩
    have hp : pending s = Ptr.null := by unfold pending; rw [hd]
    rw [hp] at l1
    exact l1
  · exact hinv
  · -- one iteration of the loop
    rename_i a hd
    have hb := hinv.busy_set (by rw [hd]; simp)
    obtain ⟨L, l1, l2, l3, l4⟩ := hinv.list
    have hp : pending s = Ptr.node a := by unfold pending; rw [hd]
    rw [hp] at l1
    cases L with
    | nil => exact absurd l1 (by simp [waiterList])
    | cons b L =>
      obtain ⟨e1, l1⟩ := l1
      have eb : a = b := by injection e1
      subst eb
      have hh : (s.awaiters a).m_awaitingCoroutine = a := l4 a (List.mem_cons_self a L)
      obtain ⟨ha1, ha2⟩ := (l3 a).mp (List.mem_cons_self a L)
      have hc0 : s.calls a = 0 := by
        rcases hinv.susp a ha1 with h | h
        · exact h.2
        · rw [ha2] at h; exact absurd h.1 (by decide)
      have hnd := List.nodup_cons.mp l2
      rw [hh]
      refine ⟨fun h => by simp at h, fun _ => hb, hinv.cas_ok, hinv.check_ok, ?_, ?_, ?_, ?_⟩
      · refine ⟨L, l1, hnd.2, ?_, fun j hj => l4 j (List.mem_cons_of_mem a hj)⟩
        intro j
        by_cases e : j = a
        · subst e
          simp only [Function.update_same, ha2]
          constructor
          · intro h; exact absurd h hnd.1
          · intro h; simp at h
        · simp only [Function.update_noteq e]
          rw [← l3 j]
          simp [e]
      · intro j hj
        by_cases e : j = a
        · subst e; simp [ha2, hc0]
        · simp only [Function.update_noteq e]; exact hinv.susp j hj
      · intro j hj
        by_cases e : j = a
        · subst e; rw [ha1] at hj; simp at hj
        · simp only [Function.update_noteq e]; exact hinv.fin j hj
      · intro j hj1 hj2
        by_cases e : j = a
        · subst e; exact absurd ha1 hj1
        · simp only [Function.update_noteq e]; exact hinv.prog j hj1 hj2
  · exact hinv

/-- A turn of a waiter keeps the invariant. -/
theorem CInv.step_waiter {s : CState} (i : Nat) (spurious : Bool) (hinv : CInv s) :
    CInv (step_waiter i spurious s) := by
  unfold Coro.step_waiter
  split
  · rename_i hpc
    have h1 : s.pc i ≠ WaiterPc.suspended := by rw [hpc]; simp
    have h2 : s.pc i ≠ WaiterPc.finished := by rw [hpc]; simp
    split
    · exact CInv.finish_step i hinv h1 h2
    · exact CInv.local_step i hinv rfl rfl rfl rfl
        (fun j e => by simp [Function.update_noteq e]) (fun j _ => rfl) h1 h2
        (by simp) (by simp) (fun v h => by simp at h) (fun v h => by simp at h)
  · rename_i hpc
    have h1 : s.pc i ≠ WaiterPc.suspended := by rw [hpc]; simp
    have h2 : s.pc i ≠ WaiterPc.finished := by rw [hpc]; simp
    exact CInv.local_step i hinv rfl rfl rfl rfl
      (fun j e => by simp [Function.update_noteq e])
      (fun j e => by simp [Function.update_noteq e]) h1 h2
      (by simp) (by simp) (fun v h => by simp at h) (fun v _ => by simp)
  · rename_i v hpc
    have h1 : s.pc i ≠ WaiterPc.suspended := by rw [hpc]; simp
    have h2 : s.pc i ≠ WaiterPc.finished := by rw [hpc]; simp
    split
    · exact CInv.finish_step i hinv h1 h2
    · rename_i hv
      exact CInv.local_step i hinv rfl rfl rfl rfl
        (fun j e => by simp [Function.update_noteq e])
        (fun j e => by simp [Function.update_noteq e]) h1 h2
        (by simp) (by simp)
        (fun u h => by
          simp only [Function.update_same, WaiterPc.cas.injEq] at h
          subst h
          exact ⟨hv, by simp, by simpa using hinv.check_ok i v hpc⟩)
        (fun u h => by simp at h)
  · rename_i v hpc
    have h1 : s.pc i ≠ WaiterPc.suspended := by rw [hpc]; simp
    have h2 : s.pc i ≠ WaiterPc.finished := by rw [hpc]; simp
    split
    · rename_i hc
      exact CInv.cas_step i v hinv hpc hc.1
    · exact CInv.local_step i hinv rfl rfl rfl rfl
        (fun j e => by simp [Function.update_noteq e]) (fun j _ => rfl) h1 h2
        (by simp) (by simp) (fun u h => by simp at h)
        (fun u _ => (hinv.cas_ok i v hpc).2.2)
  · exact hinv
  · exact hinv

/-- One turn keeps the invariant. -/
theorem CInv.step (N : Nat) (t : Turn) {s : CState} (h : CInv s) : CInv (step N t s) := by
  cases t with
  | setter => exact CInv.step_setter h
  | waiter i spurious =>
    show CInv (if i < N then Coro.step_waiter i spurious s else s)
    split
    · exact CInv.step_waiter i spurious h
    · exact h

/-- Every interleaving keeps the invariant. -/
theorem CInv.run (N : Nat) : ∀ (ts : List Turn) (s : CState), CInv s → CInv (run N ts s)
  | [], _, h => h
  | t :: ts, _, h => CInv.run N ts _ (CInv.step N t h)

/-! ### Every interleaving can be completed -/

theorem run_append (N : Nat) : ∀ (ts us : List Turn) (s : CState),
    run N (ts ++ us) s = run N us (run N ts s)
  | [], _, _ => rfl
  | t :: ts, us, s => run_append N ts us (step N t s)

theorem setter_stays_finished (N : Nat) : ∀ (n : Nat) (s : CState),
    s.setter = SetterPc.finished → run N (List.replicate n Turn.setter) s = s
  | 0, _, _ => rfl
  | n + 1, s, h => by
    have hs : step N Turn.setter s = s := by
      show step_setter s = s
      unfold step_setter
      rw [h]
    rw [List.replicate_succ, run, hs]
    exact setter_stays_finished N n s h

/-- The loop of `set()` ends after one turn per awaiter of its list, and one
more. -/
theorem drain_finishes (N : Nat) : ∀ (L : List Nat) (s : CState) (p : Ptr),
    s.setter = SetterPc.drain p → waiterList s.awaiters p L →
    (run N (List.replicate (L.length + 1) Turn.setter) s).setter = SetterPc.finished
  | [], s, p, hd, hL => by
    have hp : p = Ptr.null := hL
    subst hp
    show (step_setter s).setter = SetterPc.finished
    unfold step_setter
    rw [hd]
  | a :: L, s, p, hd, hL => by
    obtain ⟨hp, hrest⟩ := hL
    subst hp
    rw [List.length_cons, List.replicate_succ, run]
    refine drain_finishes N L (step N Turn.setter s) (s.awaiters a).m_next ?_ ?_
    · show (step_setter s).setter = _
      unfold step_setter
      rw [hd]
    · have : (step N Turn.setter s).awaiters = s.awaiters := by
        show (step_setter s).awaiters = _
        unfold step_setter
        rw [hd]
      rw [this]
      exact hrest

/-- From every state of an interleaving, turns of the setter alone bring
`set()` to its end. -/
theorem setter_finishes (N : Nat) (s : CState) (hinv : CInv s) :
    ∃ n, (run N (List.replicate n Turn.setter) s).setter = SetterPc.finished := by
  obtain ⟨L, l1, _, _, _⟩ := hinv.list
  cases hs : s.setter with
  | finished => exact ⟨0, hs⟩
  | drain p =>
    have hp : pending s = p := by unfold pending; rw [hs]
    rw [hp] at l1
    exact ⟨L.length + 1, drain_finishes N L s p hs l1⟩
  | idle =>
    have hp : pending s = s.m_state := by unfold pending; rw [hs]
    rw [hp] at l1
    refine ⟨L.length + 1 + 1, ?_⟩
    rw [List.replicate_succ, run]
    have hu := hinv.idle_unset hs
    refine drain_finishes N L (step N Turn.setter s) s.m_state ?_ ?_
    · show (step_setter s).setter = _
      unfold step_setter
      rw [hs]
      simp [hu]
    · have : (step N Turn.setter s).awaiters = s.awaiters := by
        show (step_setter s).awaiters = _
        unfold step_setter
        rw [hs]
      rw [this]
      exact l1

/-- On a set event a turn of waiter `i` brings it one turn closer to the end of
`co_await`, and changes neither the event, nor the setter, nor another
waiter. -/
theorem step_waiter_of_set (i : Nat) (s : CState) (hinv : CInv s)
    (hm : s.m_state = Ptr.this) :
    (step_waiter i false s).m_state = Ptr.this ∧
    (step_waiter i false s).setter = s.setter ∧
    (∀ j, j ≠ i → (step_waiter i false s).pc j = s.pc j) ∧
    ((step_waiter i false s).pc i).turns_left ≤ (s.pc i).turns_left - 1 := by
  unfold step_waiter
  split
  · rename_i hpc
    rw [if_pos hm]
    exact ⟨hm, rfl, fun j e => by simp [Function.update_noteq e], by
      simp [WaiterPc.turns_left]⟩
  · rename_i hpc
    exact ⟨hm, rfl, fun j e => by simp [Function.update_noteq e], by
      simp [WaiterPc.turns_left, hm, hpc]⟩
  · rename_i v hpc
    split
    · exact ⟨hm, rfl, fun j e => by simp [Function.update_noteq e], by
        simp [WaiterPc.turns_left]⟩
    · rename_i hv
      exact ⟨hm, rfl, fun j e => by simp [Function.update_noteq e], by
        simp [WaiterPc.turns_left, hv, hpc]⟩
  · rename_i v hpc
    have hv : v ≠ Ptr.this := (hinv.cas_ok i v hpc).1
    have hne : ¬ (s.m_state = v ∧ false = false) := fun h => hv (h.1 ▸ hm)
    rw [if_neg hne]
    exact ⟨hm, rfl, fun j e => by simp [Function.update_noteq e], by
      simp [WaiterPc.turns_left, hm, hpc]⟩
  · rename_i hpc
    exact ⟨hm, rfl, fun _ _ => rfl, by simp [WaiterPc.turns_left, hpc]⟩
  · rename_i hpc
    exact ⟨hm, rfl, fun _ _ => rfl, by simp [WaiterPc.turns_left, hpc]⟩

theorem waiter_turns_of_set (N i : Nat) (hi : i < N) : ∀ (n : Nat) (s : CState), CInv s →
    s.m_state = Ptr.this →
    CInv (run N (List.replicate n (Turn.waiter i false)) s) ∧
    (run N (List.replicate n (Turn.waiter i false)) s).m_state = Ptr.this ∧
    (run N (List.replicate n (Turn.waiter i false)) s).setter = s.setter ∧
    (∀ j, j ≠ i → (run N (List.replicate n (Turn.waiter i false)) s).pc j = s.pc j) ∧
    ((run N (List.replicate n (Turn.waiter i false)) s).pc i).turns_left
      ≤ (s.pc i).turns_left - n
  | 0, s, hinv, hm => ⟨hinv, hm, rfl, fun _ _ => rfl, by simp [run]⟩
  | n + 1, s, hinv, hm => by
    have hstep : step N (Turn.waiter i false) s = step_waiter i false s := by
      show (if i < N then step_waiter i false s else s) = _
      rw [if_pos hi]
    obtain ⟨a1, a2, a3, a4⟩ := step_waiter_of_set i s hinv hm
    obtain ⟨b0, b1, b2, b3, b4⟩ := waiter_turns_of_set N i hi n (step_waiter i false s)
      (CInv.step_waiter i false hinv) a1
    rw [List.replicate_succ, run, hstep]
    refine ⟨b0, b1, b2.trans a2, fun j e => (b3 j e).trans (a3 j e), ?_⟩
    omega

theorem turns_left_zero (pc : WaiterPc) (h : pc.turns_left = 0) :
    pc = WaiterPc.suspended ∨ pc = WaiterPc.finished := by
  cases pc with
  | ready => simp [WaiterPc.turns_left] at h
  | suspend => simp [WaiterPc.turns_left] at h
  | check v =>
    by_cases e : v = Ptr.this <;> simp [WaiterPc.turns_left, e] at h
  | cas v => simp [WaiterPc.turns_left] at h
  | suspended => exact Or.inl rfl
  | finished => exact Or.inr rfl

theorem turns_left_le (pc : WaiterPc) : pc.turns_left ≤ 3 := by
  cases pc with
  | check v =>
    by_cases e : v = Ptr.this <;> simp [WaiterPc.turns_left, e]
  | _ => simp [WaiterPc.turns_left]

/-- Once `set()` has exchanged the state, three turns for each waiter bring all
of them out of `co_await`. -/
theorem finish_waiters_spec (N : Nat) : ∀ (M : Nat), M ≤ N → ∀ (s : CState), CInv s →
    s.m_state = Ptr.this →
    CInv (run N (finish_waiters M) s) ∧
    (run N (finish_waiters M) s).m_state = Ptr.this ∧
    (run N (finish_waiters M) s).setter = s.setter ∧
    (∀ i, i < M → (run N (finish_waiters M) s).pc i = WaiterPc.suspended ∨
      (run N (finish_waiters M) s).pc i = WaiterPc.finished)
  | 0, _, s, hinv, hm => ⟨hinv, hm, rfl, fun i hi => absurd hi (Nat.not_lt_zero i)⟩
  | M + 1, hM, s, hinv, hm => by
    obtain ⟨a0, a1, a2, a3⟩ := finish_waiters_spec N M (Nat.le_of_succ_le hM) s hinv hm
    obtain ⟨b0, b1, b2, b3, b4⟩ := waiter_turns_of_set N M hM 3 _ a0 a1
    rw [finish_waiters, run_append]
    refine ⟨b0, b1, b2.trans a2, ?_⟩
    intro i hi
    by_cases e : i = M
    · subst e
      have := turns_left_le ((run N (finish_waiters i) s).pc i)
      exact turns_left_zero _ (by omega)
    · rw [b3 i e]
      exact a3 i (by omega)

/-- Every state of an interleaving can be brought to a state in which all calls
have returned. -/
theorem can_complete (N : Nat) (s : CState) (hinv : CInv s) :
    ∃ us, quiescent N (run N us s) := by
  obtain ⟨n, hn⟩ := setter_finishes N s hinv
  have hinv2 := CInv.run N (List.replicate n Turn.setter) s hinv
  have hm := hinv2.busy_set (by rw [hn]; simp)
  obtain ⟨_, _, c2, c3⟩ := finish_waiters_spec N N (Nat.le_refl N) _ hinv2 hm
  refine ⟨List.replicate n Turn.setter ++ finish_waiters N, ?_⟩
  rw [run_append]
  exact ⟨c2.trans hn, c3⟩

/-- C2: in every interleaving of one `set()` and `N` waits on an unset event, no
continuation runs more than once and `resume()` is called on no handle more than
once; once every call has returned, the continuation of each of the `N` waits
has run exactly once: `resume()` was called on it exactly once if the wait
suspended, and never if the wait continued without suspending; and every
interleaving can be continued until every call has returned. -/
theorem no_lost_wakeup (N : Nat) (awaiters : Nat → awaiter) (ts : List Turn) :
    (∀ i, (run N ts (CState.init awaiters)).ran i ≤ 1 ∧
      (run N ts (CState.init awaiters)).calls i ≤ 1) ∧
    (quiescent N (run N ts (CState.init awaiters)) → ∀ i, i < N →
      (run N ts (CState.init awaiters)).ran i = 1 ∧
      (run N ts (CState.init awaiters)).calls i =
        if (run N ts (CState.init awaiters)).pc i = WaiterPc.suspended then 1 else 0) ∧
    (∃ us, quiescent N (run N (ts ++ us) (CState.init awaiters))) := by
  have hinv := CInv.run N ts _ (CInv.init awaiters)
  refine ⟨?_, ?_, ?_⟩
  rotate_left 2
  · obtain ⟨us, hus⟩ := can_complete N _ hinv
    exact ⟨us, by rw [run_append]; exact hus⟩
  · intro i
    by_cases h1 : (run N ts (CState.init awaiters)).pc i = WaiterPc.suspended
    · rcases hinv.susp i h1 with h | h <;> simp [h.1, h.2]
    · by_cases h2 : (run N ts (CState.init awaiters)).pc i = WaiterPc.finished
      · simp [(hinv.fin i h2).1, (hinv.fin i h2).2]
      · simp [(hinv.prog i h1 h2).1, (hinv.prog i h1 h2).2]
  · rintro ⟨hfin, hq⟩ i hi
    obtain ⟨L, l1, _, l3, _⟩ := hinv.list
    have hp : pending (run N ts (CState.init awaiters)) = Ptr.null := by
      unfold pending; rw [hfin]
    rw [hp] at l1
    have hL : L = [] := by
      cases L with
      | nil => rfl
      | cons a L => exact absurd l1.1 (by simp)
    subst hL
    rcases hq i hi with h | h
    · have hr : (run N ts (CState.init awaiters)).ran i ≠ 0 := fun e =>
        (List.not_mem_nil i) ((l3 i).mpr ⟨h, e⟩)
      rcases hinv.susp i h with h0 | h1
      · exact absurd h0.1 hr
      · simp [h, h1.1, h1.2]
    · simp [h, (hinv.fin i h).1, (hinv.fin i h).2]

theorem no_lost_wakeup_witness :
    quiescent 2 (run 2 race (CState.init world0.awaiters)) ∧
    ∀ i, i < 2 →
      (run 2 race (CState.init world0.awaiters)).ran i = 1 ∧
      (run 2 race (CState.init world0.awaiters)).calls i =
        if (run 2 race (CState.init world0.awaiters)).pc i = WaiterPc.suspended then 1 else 0 :=
  ⟨by decide, (no_lost_wakeup 2 world0.awaiters race).2.1 (by decide)⟩

/-! ## The drain against resets and new waits -/

theorem waiterList_ne_this {aw : Nat → awaiter} {p : Ptr} :
    ∀ {L : List Nat}, waiterList aw p L → p ≠ Ptr.this
  | [], h => by
    have hp : p = Ptr.null := h
    rw [hp]; simp
  | a :: _, h => by
    rw [h.1]; simp

theorem gate_list_reset (w : World) (K : List Nat) (hg : gate_list w K) :
    gate_list (reset w) K := by
  unfold reset
  split
  · rename_i hs
    rcases hg with ⟨_, hK⟩ | ⟨hns, _⟩
    · subst hK
      exact Or.inr ⟨by simp, rfl⟩
    · exact absurd hs hns
  · exact hg

/-- Running the body of coroutine `a`, which is not in the waiter list `K` of
the event, leaves the list as it is when the body runs to its end, and puts `a`
in front of it when the body suspends at a `co_await`. -/
theorem run_body_gate_list (a : Nat) :
    ∀ (stmts : List Stmt) (w : World) (K : List Nat), a ∉ K → gate_list w K →
      gate_list (run_body a stmts w)
        (if ((run_body a stmts w).frames a).done then K else a :: K)
  | [], w, K, _, hg => by
    rw [run_body]
    simp only [setFrame_same, if_true]
    exact hg
  | Stmt.print :: rest, w, K, ha, hg => by
    rw [run_body]
    exact run_body_gate_list a rest w K ha hg
  | Stmt.reset :: rest, w, K, ha, hg => by
    rw [run_body]
    exact run_body_gate_list a rest (reset w) K ha (gate_list_reset w K hg)
  | Stmt.co_await :: rest, w, K, ha, hg => by
    rw [run_body]
    by_cases hs : w.m_state = Ptr.this
    · have hr : await_ready w = true := by simp [await_ready, is_set, hs]
      simp only [hr, if_true]
      exact run_body_gate_list a rest w K ha hg
    · have hr : await_ready w = false := by simp [await_ready, is_set, hs]
      have hK : waiterList w.awaiters w.m_state K := by
        rcases hg with ⟨h1, _⟩ | ⟨_, h2⟩
        · exact absurd h1 hs
        · exact h2
      obtain ⟨e1, _, e3, _, _⟩ := await_suspend_links w a a hs
      have hp := waiterList_push w a a K hs hK ha
      simp only [hr, e1, if_true, Bool.false_eq_true, if_false, setFrame_same]
      exact Or.inr ⟨by rw [setFrame_m_state, e3]; simp, hp⟩

theorem later_waiters_cons (w : World) (a : Nat) (L : List Nat) :
    later_waiters w (a :: L) =
      later_waiters w L ++ (if (w.frames a).done then [] else [a]) := by
  unfold later_waiters
  by_cases h : (w.frames a).done = true
  · simp [List.filter_cons, h]
  · simp [List.filter_cons, h]

/-- The drain loop over the captured list `L`, while the event holds the list
`K` of waits linked since the exchange: the loop resumes exactly `L`, and the
coroutines of `L` that wait again are put in front of `K`, none of them being
resumed. -/
theorem drain_relinks :
    ∀ (L : List Nat) (fuel : Nat) (p : Ptr) (w : World) (K : List Nat), L.length ≤ fuel →
      waiterList w.awaiters p L → L.Nodup →
      (∀ a ∈ L, (w.awaiters a).m_awaitingCoroutine = a ∧ (w.frames a).done = false) →
      (∀ a ∈ L, a ∉ K) → gate_list w K →
      ∃ w1, drain coroutine_resume fuel p w = some (L, w1) ∧
        gate_list w1 (later_waiters w1 L ++ K) ∧
        (∀ b, b ∉ L → w1.frames b = w.frames b ∧ w1.awaiters b = w.awaiters b)
  | [], fuel, p, w, K, _, hL, _, _, _, hg => by
    have hp : p = Ptr.null := hL
    subst hp
    exact ⟨w, drain_null coroutine_resume fuel w, by simpa [later_waiters] using hg,
      fun _ _ => ⟨rfl, rfl⟩⟩
  | a :: L, 0, _, _, _, hf, _, _, _, _, _ => by simp at hf
  | a :: L, fuel + 1, p, w, K, hf, hL, hnd, hall, hK, hg => by
    obtain ⟨hp, hrest⟩ := hL
    subst hp
    obtain ⟨hh, hok⟩ := hall a (List.mem_cons_self a L)
    have hnd2 := List.nodup_cons.mp hnd
    have hne : ∀ b ∈ L, b ≠ a := fun b hb e => hnd2.1 (e ▸ hb)
    have haK : a ∉ K := hK a (List.mem_cons_self a L)
    have hr : coroutine_resume a w = some (run_body a (w.frames a).pc w) := by
      simp [coroutine_resume, hok]
    have hg1 := run_body_gate_list a (w.frames a).pc w K haK hg
    obtain ⟨w2, hd, hg2, hout⟩ := drain_relinks L fuel (w.awaiters a).m_next
      (run_body a (w.frames a).pc w)
      (if ((run_body a (w.frames a).pc w).frames a).done then K else a :: K)
      (by simpa using hf)
      (waiterList_congr L _
        (fun b hb => (run_body_others a (w.frames a).pc w b (hne b hb)).1) hrest)
      hnd2.2
      (fun b hb => by
        obtain ⟨h1, h2⟩ := hall b (List.mem_cons_of_mem a hb)
        obtain ⟨o1, o2⟩ := run_body_others a (w.frames a).pc w b (hne b hb)
        exact ⟨by rw [o1]; exact h1, by rw [o2]; exact h2⟩)
      (fun b hb => by
        have hbK := hK b (List.mem_cons_of_mem a hb)
        split
        · exact hbK
        · intro hm
          rcases List.mem_cons.mp hm with e | e
          · exact hne b hb e
          · exact hbK e)
      hg1
    refine ⟨w2, ?_, ?_, ?_⟩
    · rw [drain]
      simp only [hh, hr, hd]
    · have hfa : w2.frames a = (run_body a (w.frames a).pc w).frames a := (hout a hnd2.1).1
      rw [later_waiters_cons, hfa, List.append_assoc]
      by_cases hdone : ((run_body a (w.frames a).pc w).frames a).done = true
      · simp only [hdone, if_true, List.nil_append] at hg2 ⊢
        exact hg2
      · simp only [hdone, if_false, List.singleton_append] at hg2 ⊢
        exact hg2
    · intro b hb
      have hba : b ≠ a := fun e => hb (e ▸ List.mem_cons_self a L)
      have hbL : b ∉ L := fun e => hb (List.mem_cons_of_mem a e)
      obtain ⟨o1, o2⟩ := run_body_others a (w.frames a).pc w b hba
      exact ⟨(hout b hbL).1.trans o2, (hout b hbL).2.trans o1⟩

/-- C12, the claim refuted: with the list 2, 1 captured by `set()`, the
continuation of coroutine 2 calls `reset()` and waits again, which links it into
the event after the exchange (first part); the continuation of coroutine 1 then
calls `event.set()`, whose own exchange takes this later waiter out and resumes
it (second part); so when the outer `set()` returns, having itself called
`resume()` on 2 and 1, the event is set, no waiter is linked and the later
waiter has run to its end (third part). -/
theorem set_nested_resumes_later_waiter :
    (coroutine_resume 2 { worldNested with m_state := Ptr.this }).map
        (fun w => (w.m_state, w.frames 2))
      = some (Ptr.node 2, { pc := [Stmt.print], done := false }) ∧
    ((coroutine_resume 2 { worldNested with m_state := Ptr.this }).bind
        (fun w => set coroutine_resume 1 w)).map (fun r => r.1)
      = some [2] ∧
    (set (resume_calling_set 1 1) 2 worldNested).map
        (fun r => (r.1, is_set r.2, r.2.frames 2, later_waiters r.2 [2, 1]))
      = some ([2, 1], true, { pc := [], done := true }, []) := by
  refine ⟨?_, ?_, ?_⟩ <;> rfl

/-- C12, amended: on an event whose waiter list is `L` (distinct coroutines
suspended at their `co_await`), when no resumed body calls `set()` itself, the
bodies being any sequences of outputs, `reset()` calls and waits on the event,
`set()` with enough fuel for the loop returns, having resumed exactly the
coroutines of `L`, each once and in list order. A coroutine of `L` whose
continuation waited again is not resumed a second time: when `set()` returns
these later waiters form the waiter list of the event (which is set only if
there is none), so each of them is still linked. Nothing outside `L` has been
touched. -/
theorem set_drains_captured_list (w : World) (L : List Nat) (fuel : Nat)
    (hL : waiterList w.awaiters w.m_state L) (hnd : L.Nodup)
    (hh : ∀ a ∈ L, (w.awaiters a).m_awaitingCoroutine = a ∧ (w.frames a).done = false)
    (hfuel : L.length ≤ fuel) :
    ∃ w1, set coroutine_resume fuel w = some (L, w1) ∧
      gate_list w1 (later_waiters w1 L) ∧
      (∀ a ∈ L, (w1.frames a).done = false →
        ∃ K, waiterList w1.awaiters w1.m_state K ∧ a ∈ K) ∧
      (∀ b, b ∉ L → w1.frames b = w.frames b ∧ w1.awaiters b = w.awaiters b) := by
  have hns : w.m_state ≠ Ptr.this := waiterList_ne_this hL
  obtain ⟨w1, hd, hg, hout⟩ := drain_relinks L fuel w.m_state
    { w with m_state := Ptr.this } [] hfuel hL hnd hh (fun _ _ => by simp)
    (Or.inl ⟨rfl, rfl⟩)
  rw [List.append_nil] at hg
  refine ⟨w1, ?_, hg, ?_, hout⟩
  · unfold async_manual_reset_event.set
    simp only [ne_eq, hns, not_false_eq_true, if_true]
    exact hd
  · intro a ha hdone
    have hmem : a ∈ later_waiters w1 L := by
      unfold later_waiters
      rw [List.mem_reverse, List.mem_filter]
      exact ⟨ha, by simp [hdone]⟩
    rcases hg with ⟨_, hK⟩ | ⟨_, hlist⟩
    · rw [hK] at hmem
      exact absurd hmem (List.not_mem_nil a)
    · exact ⟨later_waiters w1 L, hlist, hmem⟩

theorem set_drains_captured_list_witness :
    ∃ w1, set coroutine_resume 3 worldRewait = some ([3, 2, 1], w1) ∧
      gate_list w1 (later_waiters w1 [3, 2, 1]) ∧
      (∀ a ∈ [3, 2, 1], (w1.frames a).done = false →
        ∃ K, waiterList w1.awaiters w1.m_state K ∧ a ∈ K) ∧
      (∀ b, b ∉ [3, 2, 1] →
        w1.frames b = worldRewait.frames b ∧ w1.awaiters b = worldRewait.awaiters b) :=
  set_drains_captured_list worldRewait [3, 2, 1] 3 (by simp [waiterList, worldRewait])
    (by decide) (by decide) (by decide)

/-- The drain of `worldRewait`: coroutines 3, 2 and 1 are resumed in this order;
coroutine 3, which called `reset()` and waited again, is the head of the event
afterwards, with no successor, and is the only later waiter. -/
theorem set_worldRewait :
    (set coroutine_resume 3 worldRewait).map
        (fun r => (r.1, r.2.m_state, (r.2.awaiters 3).m_next, later_waiters r.2 [3, 2, 1]))
      = some ([3, 2, 1], Ptr.node 3, Ptr.null, [3]) := by
  rfl

end Coro
